import Mathlib

/-
  Shallow embedding of the restarted Householder ("Simpler GMRES") solver of
  src/viennacl/linalg/gmres.hpp over the real numbers.  The C++ scalar type
  (float/double) is idealized as ℝ; the machine epsilon of the scalar type is
  kept as an explicit parameter `eps`.  Vectors of dimension n are total
  functions ℕ → ℝ whose entries at indices ≥ n are irrelevant junk: every
  reduction (inner product, 2-norm) only reads indices < n, exactly as the
  C++ code only touches the first `problem_size` entries.  The opaque
  MatrixType / PreconditionerType collaborators are arbitrary functions on
  vectors, mirroring the template parameters of `solve`.
-/

namespace Gmres

/-- Inner product over the first n coordinates, the model of
`viennacl::linalg::inner_prod` on vectors of dimension n. -/
noncomputable def iprod (n : ℕ) (x y : ℕ → ℝ) : ℝ :=
  ∑ j ∈ Finset.range n, x j * y j

/-- Euclidean norm over the first n coordinates, the model of
`viennacl::linalg::norm_2`. -/
noncomputable def norm_2 (n : ℕ) (x : ℕ → ℝ) : ℝ :=
  Real.sqrt (iprod n x x)

/-- Pointwise difference of vectors. -/
def vsub (x y : ℕ → ℝ) : ℕ → ℝ := fun j => x j - y j

/-- Scalar multiple of a vector. -/
def vsmul (c : ℝ) (x : ℕ → ℝ) : ℕ → ℝ := fun j => c * x j

/-- Write value v at index i (model of `x[i] = v`). -/
def upd (x : ℕ → ℝ) (i : ℕ) (v : ℝ) : ℕ → ℝ :=
  fun j => if j = i then v else x j

/-- Replace row k of a row-indexed family of vectors. -/
def updRow (M : ℕ → ℕ → ℝ) (k : ℕ) (row : ℕ → ℝ) : ℕ → ℕ → ℝ :=
  fun i => if i = k then row else M i

/-- One Householder reflection application
`v -= u * (inner_prod(u, v) * 2)` from gmres.hpp lines 211/219/251/332. -/
noncomputable def reflect (n : ℕ) (u v : ℕ → ℝ) : ℕ → ℝ :=
  vsub v (vsmul (iprod n u v * 2) u)

/-- Sequential application of the reflections U[i] for i drawn from idxs,
in list order (the loops at gmres.hpp lines 210-211, 218-219, 331-332). -/
noncomputable def reflectFold (n : ℕ) (U : ℕ → ℕ → ℝ) (idxs : List ℕ)
    (v : ℕ → ℝ) : ℕ → ℝ :=
  idxs.foldl (fun w i => reflect n (U i) w) v

/-- First k entries of v, remaining entries zero: the state of U[k] after
`clear`, `resize` and `gmres_copy_helper(v_k_tilde, U[k], k)`
(gmres.hpp lines 224-227). -/
def truncTo (v : ℕ → ℝ) (k : ℕ) : ℕ → ℝ :=
  fun j => if j < k then v j else 0

/-- Candidate vector v_k_tilde of inner step k (gmres.hpp lines 200-220):
for k = 0 the preconditioned product A·res, otherwise the two-pass
reflection sandwich around the preconditioned product applied to the
(k-1)-th standard basis vector. -/
noncomputable def candidate (A P : (ℕ → ℝ) → ℕ → ℝ) (n : ℕ)
    (U : ℕ → ℕ → ℝ) (res : ℕ → ℝ) (k : ℕ) : ℕ → ℝ :=
  if k = 0 then P (A res)
  else
    let e : ℕ → ℝ := fun j => if j = k - 1 then 1 else 0
    let w1 := reflectFold n U (List.range k).reverse e
    let w2 := P (A w1)
    reflectFold n U (List.range k) w2

/-- Diagonal entry U[k][k] = sqrt(⟨v,v⟩ - ⟨U[k],U[k]⟩) of gmres.hpp line 229,
with U[k] holding the first k entries of the candidate v. -/
noncomputable def houseDiag (n : ℕ) (v : ℕ → ℝ) (k : ℕ) : ℝ :=
  Real.sqrt (iprod n v v - iprod n (truncTo v k) (truncTo v k))

/-- Sequential clamp of a into [-rho, rho] (gmres.hpp lines 265-269). -/
noncomputable def clamp (rho a : ℝ) : ℝ :=
  let a1 := if a > rho then rho else a
  if a1 < -rho then -rho else a1

/-- The mutable working data of one `solve` invocation, plus the mutable
iteration counter of the tag that the solver writes through
`tag.iters(...)`.  The other tag run-output, tag.error(), is threaded
separately: on every control path through a restart cycle its final value
is the one written by the cycle's last `tag.error(...)` call (the write at
line 283 is always repeated verbatim by line 340 on the same path before
any read), so the model records it once per cycle. -/
structure SolveState where
  result : ℕ → ℝ
  res : ℕ → ℝ
  U : ℕ → ℕ → ℝ
  R : ℕ → ℕ → ℝ
  p : ℕ → ℝ
  iters : ℕ

/-- Inner basis-building loop of gmres.hpp lines 195-290.  Arguments after
the parameters: remaining fuel (krylov_dim - k), current step index k,
current residual surrogate rho, current state.  Returns the effective
Krylov size k_eff, the final rho, and the final state.  The three exits
mirror the source: breakdown (line 231-232, k_eff = k, only U[k] and the
iteration counter touched), convergence (lines 280-286, k_eff = k + 1 with
the step's data stored), or fuel exhaustion (k_eff = krylov_dim). -/
noncomputable def innerLoop (A P : (ℕ → ℝ) → ℕ → ℝ) (n : ℕ)
    (eps tol rho_0 norm_rhs : ℝ) :
    ℕ → ℕ → ℝ → SolveState → ℕ × ℝ × SolveState
  | 0, k, rho, s => (k, rho, s)
  | fuel + 1, k, rho, s =>
    let s1 : SolveState := { s with iters := s.iters + 1 }
    let v := candidate A P n s.U s.res k
    let Uk0 := truncTo v k
    let ukk := houseDiag n v k
    let Uk1 := upd Uk0 k ukk
    if |ukk| < 10 * eps then
      (k, rho, { s1 with U := updRow s1.U k Uk1 })
    else
      let Rk : ℕ → ℝ := fun i => if i < k + 1 then Uk1 i else s.R k i
      let Uk2 := vsub Uk1 v
      let Uk3 := vsmul ((-1) / norm_2 n Uk2) Uk2
      let res1 := reflect n Uk3 s.res
      let a2 := clamp rho (res1 k)
      let res2 := upd res1 k a2
      let p2 := upd s1.p k a2
      let rho2 := rho * Real.sin (Real.arccos (a2 / rho))
      let s2 : SolveState :=
        { s1 with U := updRow s1.U k Uk3, R := updRow s1.R k Rk,
                  res := res2, p := p2 }
      if |rho2 * rho_0 / norm_rhs| < tol then
        (k + 1, rho2, s2)
      else
        innerLoop A P n eps tol rho_0 norm_rhs fuel (k + 1) rho2 s2

/-- Body of the j-loop followed by the division for one index i of the
triangular back-substitution (gmres.hpp lines 308-312). -/
noncomputable def backSubStep (R : ℕ → ℕ → ℝ) (k i : ℕ) (p : ℕ → ℝ) :
    ℕ → ℝ :=
  upd p i
    (((List.range' (i + 1) (k - (i + 1))).foldl
        (fun acc j => acc - R j i * p j) (p i)) / R i i)

/-- Back-substitution loop (gmres.hpp lines 306-313): processes indices
m-1, m-2, ..., 0 in this order. -/
noncomputable def backSubAux (R : ℕ → ℕ → ℝ) (k : ℕ) :
    ℕ → (ℕ → ℝ) → ℕ → ℝ
  | 0, p => p
  | i + 1, p => backSubAux R k i (backSubStep R k i p)

/-- In-place triangular solve over the leading k indices of p. -/
noncomputable def backSub (R : ℕ → ℕ → ℝ) (k : ℕ) (p : ℕ → ℝ) : ℕ → ℝ :=
  backSubAux R k k p

/-- Observable outcome of one restart cycle: the new state, the value
written by the cycle's last tag.error(...) call, the final rho and rho_0 of
the cycle, the effective Krylov size, and whether `solve` returns inside
this cycle. -/
structure CycleOut where
  s : SolveState
  err : ℝ
  rho : ℝ
  rho_0 : ℝ
  k_eff : ℕ
  returned : Bool

/-- The preconditioned residual res = P(rhs - A x) of gmres.hpp
lines 168-170 (initial guess is the accumulated result). -/
noncomputable def cycleRes0 (A P : (ℕ → ℝ) → ℕ → ℝ) (rhs : ℕ → ℝ)
    (s : SolveState) : ℕ → ℝ :=
  P (fun j => rhs j - A s.result j)

/-- rho_0 = norm_2(res) of gmres.hpp line 173. -/
noncomputable def cycleRho0 (A P : (ℕ → ℝ) → ℕ → ℝ) (n : ℕ)
    (rhs : ℕ → ℝ) (s : SolveState) : ℝ :=
  norm_2 n (cycleRes0 A P rhs s)

/-- State at the head of the inner loop: res normalized by rho_0
(line 184) and the U / R rows cleared and re-sized (lines 187-193).
projection_rhs is deliberately not cleared, as in the source. -/
noncomputable def cycleStart (A P : (ℕ → ℝ) → ℕ → ℝ) (n kd : ℕ)
    (rhs : ℕ → ℝ) (s : SolveState) : SolveState :=
  { s with res := fun j => cycleRes0 A P rhs s j / cycleRho0 A P n rhs s,
           U := fun i => if i < kd then (fun _ => 0) else s.U i,
           R := fun i => if i < kd then (fun _ => 0) else s.R i }

/-- The inner loop of one cycle, started at k = 0 with rho = 1
(gmres.hpp lines 174, 195). -/
noncomputable def cycleInner (A P : (ℕ → ℝ) → ℕ → ℝ) (n kd : ℕ)
    (eps tol norm_rhs : ℝ) (rhs : ℕ → ℝ) (s : SolveState) :
    ℕ × ℝ × SolveState :=
  innerLoop A P n eps tol (cycleRho0 A P n rhs s) norm_rhs kd 0 1
    (cycleStart A P n kd rhs s)

/-- Solution reconstruction of gmres.hpp lines 321-334: res *= p2[0],
the element-wise addition of p2[1..k-1] guarded by k > 0, the reflections
in descending order, and the final scaling by rho_0. -/
noncomputable def reconstruct (n : ℕ) (rho_0 : ℝ) (keff : ℕ)
    (s2 : SolveState) (p2 : ℕ → ℝ) : ℕ → ℝ :=
  let r1 : ℕ → ℝ := fun j => s2.res j * p2 0
  let r2 := if 0 < keff then
      (List.range (keff - 1)).foldl (fun r i => upd r i (r i + p2 (i + 1))) r1
    else r1
  let r3 := reflectFold n s2.U (List.range keff).reverse r2
  fun j => r3 j * rho_0

/-- One iteration of the outer restart loop of gmres.hpp lines 164-351:
residual computation and preconditioning (168-170), the converged-at-start
check (177-182), normalization (184), basis/R reset (187-193), the inner
loop (195-290), back-substitution (306-313), solution reconstruction
(321-335), and the final convergence check (337-342) which decides between
returning with the normalized error and continuing with the unnormalized
error record (350).  The two source return points are merged into one
record whose err and returned fields carry the branch outcome. -/
noncomputable def gmresCycle (A P : (ℕ → ℝ) → ℕ → ℝ) (n kd : ℕ)
    (eps tol norm_rhs : ℝ) (rhs : ℕ → ℝ) (s : SolveState) : CycleOut :=
  let res0 := cycleRes0 A P rhs s
  let rho_0 := cycleRho0 A P n rhs s
  if rho_0 / norm_rhs < tol ∨ norm_rhs = 0 then
    { s := { s with res := res0 }, err := rho_0 / norm_rhs,
      rho := 1, rho_0 := rho_0, k_eff := 0, returned := true }
  else
    let out := cycleInner A P n kd eps tol norm_rhs rhs s
    let keff := out.1
    let rhoF := out.2.1
    let s2 := out.2.2
    let p2 := backSub s2.R keff s2.p
    let r4 := reconstruct n rho_0 keff s2 p2
    let result2 : ℕ → ℝ := fun j => s.result j + r4 j
    { s := { s2 with result := result2, res := r4, p := p2 },
      err := if |rhoF * rho_0 / norm_rhs| < tol
             then |rhoF * rho_0 / norm_rhs| else |rhoF * rho_0|,
      rho := rhoF, rho_0 := rho_0, k_eff := keff,
      returned := decide (|rhoF * rho_0 / norm_rhs| < tol) }

/-- Model of the `gmres_tag` configuration class.  The C++ constructor
initializes tol_, iterations_, krylov_dim_ and iters_taken_ but leaves the
mutable field last_error_ uninitialized; an uninitialized double is modeled
as an arbitrary value carried by the constructor. -/
structure gmres_tag where
  tol : ℝ
  iterations : ℕ
  krylov_dim : ℕ
  iters_taken : ℕ
  last_error : ℝ

/-- The gmres_tag constructor (gmres.hpp lines 53-54): iters_taken_ starts
at 0, last_error_ is left uninitialized (parameter junk). -/
def gmres_tag.make (tol : ℝ) (max_iterations krylov_dim : ℕ) (junk : ℝ) :
    gmres_tag :=
  ⟨tol, max_iterations, krylov_dim, 0, junk⟩

/-- gmres_tag::max_restarts (gmres.hpp lines 63-69). -/
def gmres_tag.max_restarts (t : gmres_tag) : ℕ :=
  let ret := t.iterations / t.krylov_dim
  if 0 < ret ∧ ret * t.krylov_dim = t.iterations then ret - 1 else ret

/-- The clamped Krylov dimension of gmres.hpp lines 133-135: problem_size
if it is smaller than tag.krylov_dim(), else tag.krylov_dim(). -/
def krylovUsed (n kd : ℕ) : ℕ := if n < kd then n else kd

/-- Outer restart loop of gmres.hpp lines 164-351, driven by fuel
max_restarts()+1, threading the state and the current tag.error value.
Returns the final state, the final tag.error value, whether some cycle
returned (converged), and the rho / rho_0 of the last executed cycle. -/
noncomputable def outerLoop (A P : (ℕ → ℝ) → ℕ → ℝ) (n kd : ℕ)
    (eps tol norm_rhs : ℝ) (rhs : ℕ → ℝ) :
    ℕ → SolveState → ℝ → SolveState × ℝ × Bool × ℝ × ℝ
  | 0, s, err => (s, err, false, 1, 0)
  | fuel + 1, s, _ =>
    let c := gmresCycle A P n kd eps tol norm_rhs rhs s
    if c.returned then (c.s, c.err, true, c.rho, c.rho_0)
    else if fuel = 0 then (c.s, c.err, false, c.rho, c.rho_0)
    else outerLoop A P n kd eps tol norm_rhs rhs fuel c.s c.err

/-- Observable result of a `solve` call: the returned vector, and the
values of tag.iters() and tag.error() after the call, plus the
instrumented convergence flag and last-cycle rho / rho_0. -/
structure SolveOut where
  x : ℕ → ℝ
  iters : ℕ
  error : ℝ
  converged : Bool
  rho : ℝ
  rho_0 : ℝ

/-- The state at entry of the restart loop: cleared result (gmres.hpp
lines 131-132), scratch vectors and zero-initialized R, U and
projection_rhs (137-143, 155-159), iteration counter reset to 0 (162). -/
def initState : SolveState :=
  { result := fun _ => 0, res := fun _ => 0, U := fun _ _ => 0,
    R := fun _ _ => 0, p := fun _ => 0, iters := 0 }

/-- Implementation of the GMRES `solve` (gmres.hpp lines 126-354): clear
the result (131-132), clamp the Krylov dimension (133-135), zero-initialize
R, projection_rhs and U (141-143, 155-159), compute norm_rhs and return the
zero vector if it vanishes (149-152) leaving the tag untouched, otherwise
reset tag.iters to 0 (162) and run the restart loop. -/
noncomputable def solve (A P : (ℕ → ℝ) → ℕ → ℝ) (n : ℕ) (eps : ℝ)
    (tag : gmres_tag) (rhs : ℕ → ℝ) : SolveOut :=
  let kd := krylovUsed n tag.krylov_dim
  let norm_rhs := norm_2 n rhs
  if norm_rhs = 0 then
    { x := fun _ => 0, iters := tag.iters_taken, error := tag.last_error,
      converged := false, rho := 1, rho_0 := 0 }
  else
    let out := outerLoop A P n kd eps tag.tol norm_rhs rhs
        (tag.max_restarts + 1) initState tag.last_error
    { x := out.1.result, iters := out.1.iters, error := out.2.1,
      converged := out.2.2.1, rho := out.2.2.2.1, rho_0 := out.2.2.2.2 }

end Gmres

namespace Gmres

theorem div_mul_eq_iff_mod_eq_zero (a b : ℕ) :
    a / b * b = a ↔ a % b = 0 := by
  constructor
  · intro he
    conv_lhs => rw [← he]
    exact Nat.mul_mod_left _ _
  · intro hr
    exact Nat.div_mul_cancel (Nat.dvd_of_mod_eq_zero hr)

/-- Claim C3: for every configuration with krylov_dim > 0, max_restarts()
equals the integer quotient max_iterations / krylov_dim, reduced by one
exactly when the division has zero remainder and the quotient is
positive. -/
theorem C3_max_restarts (t : gmres_tag) (h : 0 < t.krylov_dim) :
    t.max_restarts =
      t.iterations / t.krylov_dim -
        (if t.iterations % t.krylov_dim = 0 ∧ 0 < t.iterations / t.krylov_dim
         then 1 else 0) := by
  simp only [gmres_tag.max_restarts]
  rcases Nat.eq_zero_or_pos (t.iterations / t.krylov_dim) with h0 | h0
  · simp [h0]
  · by_cases hm : t.iterations % t.krylov_dim = 0
    · rw [if_pos ⟨h0, (div_mul_eq_iff_mod_eq_zero _ _).mpr hm⟩,
        if_pos ⟨hm, h0⟩]
    · rw [if_neg, if_neg]
      · simp
      · exact fun hc => hm hc.1
      · exact fun hc => hm ((div_mul_eq_iff_mod_eq_zero _ _).mp hc.2)

/-- Witness for C3 at tolerance 0, max_iterations 10, krylov_dim 5: the
division is exact with positive quotient, so max_restarts is 10/5 - 1. -/
theorem C3_witness :
    0 < (gmres_tag.make 0 10 5 0).krylov_dim ∧
    (gmres_tag.make 0 10 5 0).max_restarts =
      (gmres_tag.make 0 10 5 0).iterations /
          (gmres_tag.make 0 10 5 0).krylov_dim -
        (if (gmres_tag.make 0 10 5 0).iterations %
              (gmres_tag.make 0 10 5 0).krylov_dim = 0 ∧
            0 < (gmres_tag.make 0 10 5 0).iterations /
              (gmres_tag.make 0 10 5 0).krylov_dim
         then 1 else 0) :=
  ⟨by decide, C3_max_restarts _ (by decide)⟩

/-- Claim C2: for every rhs whose 2-norm is zero, solve on a freshly
constructed configuration returns the zero vector and leaves
iterations_taken at its constructor value 0, without running any restart
cycle. -/
theorem C2_zero_norm_rhs (A P : (ℕ → ℝ) → ℕ → ℝ) (n : ℕ) (eps tol : ℝ)
    (mi kd : ℕ) (junk : ℝ) (rhs : ℕ → ℝ) (h : norm_2 n rhs = 0) :
    (∀ j, (solve A P n eps (gmres_tag.make tol mi kd junk) rhs).x j = 0) ∧
    (solve A P n eps (gmres_tag.make tol mi kd junk) rhs).iters = 0 := by
  constructor
  · intro j
    simp [solve, h]
  · simp [solve, h, gmres_tag.make]

/-- Witness for C2: the zero vector in dimension 1 has zero norm, and solve
returns the zero vector with zero iterations. -/
theorem C2_witness :
    (∀ j, (solve (fun v => v) (fun v => v) 1 0 (gmres_tag.make 1 300 20 0)
        (fun _ => 0)).x j = 0) ∧
    (solve (fun v => v) (fun v => v) 1 0 (gmres_tag.make 1 300 20 0)
        (fun _ => 0)).iters = 0 :=
  C2_zero_norm_rhs _ _ 1 0 1 300 20 0 _ (by simp [norm_2, iprod])

end Gmres

namespace Gmres

/-- Claim C4: at inner step k, if the computed diagonal |U[k][k]| is below
10 times machine epsilon, the inner loop exits at once with effective size
k: rho, R, projection_rhs and res are all left exactly as they were (only
the iteration counter and the scratch row U[k] were touched), so the cycle
proceeds to back-substitution over the k previously built steps; the loop
returns normally, with no error channel touched. -/
theorem C4_breakdown_exit (A P : (ℕ → ℝ) → ℕ → ℝ) (n : ℕ)
    (eps tol rho_0 norm_rhs : ℝ) (fuel k : ℕ) (rho : ℝ) (s : SolveState)
    (h : |houseDiag n (candidate A P n s.U s.res k) k| < 10 * eps) :
    (innerLoop A P n eps tol rho_0 norm_rhs (fuel + 1) k rho s).1 = k ∧
    (innerLoop A P n eps tol rho_0 norm_rhs (fuel + 1) k rho s).2.1 = rho ∧
    (innerLoop A P n eps tol rho_0 norm_rhs (fuel + 1) k rho s).2.2.R = s.R ∧
    (innerLoop A P n eps tol rho_0 norm_rhs (fuel + 1) k rho s).2.2.p = s.p ∧
    (innerLoop A P n eps tol rho_0 norm_rhs (fuel + 1) k rho s).2.2.res
      = s.res ∧
    (innerLoop A P n eps tol rho_0 norm_rhs (fuel + 1) k rho s).2.2.iters
      = s.iters + 1 := by
  simp only [innerLoop]
  rw [if_pos h]
  exact ⟨rfl, rfl, rfl, rfl, rfl, rfl⟩

theorem clamp_mem (rho a : ℝ) (h0 : 0 ≤ rho) :
    -rho ≤ clamp rho a ∧ clamp rho a ≤ rho := by
  unfold clamp
  by_cases h1 : a > rho
  · rw [if_pos h1]
    by_cases h2 : rho < -rho
    · rw [if_pos h2]
      constructor
      · linarith
      · linarith
    · rw [if_neg h2]
      constructor
      · linarith
      · linarith
  · rw [if_neg h1]
    by_cases h2 : a < -rho
    · rw [if_pos h2]
      constructor
      · linarith
      · linarith
    · rw [if_neg h2]
      constructor
      · linarith
      · linarith

theorem sinFactor_mem (x : ℝ) :
    0 ≤ Real.sin (Real.arccos x) ∧ Real.sin (Real.arccos x) ≤ 1 := by
  rw [Real.sin_arccos]
  refine ⟨Real.sqrt_nonneg _, ?_⟩
  calc Real.sqrt (1 - x ^ 2) ≤ Real.sqrt 1 :=
        Real.sqrt_le_sqrt (by nlinarith [sq_nonneg x])
    _ = 1 := Real.sqrt_one

theorem rho_step_bounds (rho x : ℝ) (h0 : 0 ≤ rho) :
    0 ≤ rho * Real.sin (Real.arccos x) ∧
    rho * Real.sin (Real.arccos x) ≤ rho :=
  ⟨mul_nonneg h0 (sinFactor_mem x).1,
   mul_le_of_le_one_right h0 (sinFactor_mem x).2⟩

theorem innerLoop_rho_bounds (A P : (ℕ → ℝ) → ℕ → ℝ) (n : ℕ)
    (eps tol rho_0 norm_rhs : ℝ) :
    ∀ (fuel k : ℕ) (rho : ℝ) (s : SolveState), 0 ≤ rho →
      0 ≤ (innerLoop A P n eps tol rho_0 norm_rhs fuel k rho s).2.1 ∧
      (innerLoop A P n eps tol rho_0 norm_rhs fuel k rho s).2.1 ≤ rho := by
  intro fuel
  induction fuel with
  | zero =>
    intro k rho s h0
    exact ⟨h0, le_refl _⟩
  | succ f ih =>
    intro k rho s h0
    simp only [innerLoop]
    split
    · exact ⟨h0, le_refl _⟩
    · split
      · exact rho_step_bounds rho _ h0
      · refine ⟨(ih _ _ _ (rho_step_bounds rho _ h0).1).1,
          le_trans (ih _ _ _ (rho_step_bounds rho _ h0).1).2
            (rho_step_bounds rho _ h0).2⟩

/-- Claim C6: within an inner loop the clamp confines res[k] (and hence
projection_rhs[k]) to [-rho, rho], and the residual surrogate rho, started
at 1 by the cycle, never increases and stays in [0, 1]: from any point with
0 ≤ rho ≤ 1 the remaining loop ends with 0 ≤ rho_final ≤ rho ≤ 1. -/
theorem C6_rho_invariant (A P : (ℕ → ℝ) → ℕ → ℝ) (n : ℕ)
    (eps tol rho_0 norm_rhs : ℝ) (fuel k : ℕ) (rho a : ℝ) (s : SolveState)
    (h0 : 0 ≤ rho) (h1 : rho ≤ 1) :
    (-rho ≤ clamp rho a ∧ clamp rho a ≤ rho) ∧
    (0 ≤ (innerLoop A P n eps tol rho_0 norm_rhs fuel k rho s).2.1 ∧
     (innerLoop A P n eps tol rho_0 norm_rhs fuel k rho s).2.1 ≤ rho ∧
     (innerLoop A P n eps tol rho_0 norm_rhs fuel k rho s).2.1 ≤ 1) := by
  have hb := innerLoop_rho_bounds A P n eps tol rho_0 norm_rhs fuel k rho s h0
  exact ⟨clamp_mem rho a h0, hb.1, hb.2, hb.2.trans h1⟩

end Gmres

namespace Gmres

theorem foldl_sub_sum (f : ℕ → ℝ) :
    ∀ (len koff : ℕ) (a : ℝ),
      (List.range' koff len).foldl (fun acc j => acc - f j) a =
        a - ∑ j ∈ Finset.Ico koff (koff + len), f j := by
  intro len
  induction len with
  | zero =>
    intro koff a
    simp
  | succ m ih =>
    intro koff a
    rw [List.range'_succ]
    simp only [List.foldl_cons]
    rw [ih (koff + 1) (a - f koff)]
    rw [Finset.sum_eq_sum_Ico_succ_bot (by omega : koff < koff + (m + 1))]
    have hx : koff + 1 + m = koff + (m + 1) := by omega
    rw [hx]
    ring

theorem backSubStep_ne (R : ℕ → ℕ → ℝ) (k m i : ℕ) (p : ℕ → ℝ)
    (h : i ≠ m) : backSubStep R k m p i = p i := by
  simp only [backSubStep, upd]
  rw [if_neg h]

theorem backSubAux_frozen (R : ℕ → ℕ → ℝ) (k : ℕ) :
    ∀ (m : ℕ) (p : ℕ → ℝ) (j : ℕ), m ≤ j → backSubAux R k m p j = p j := by
  intro m
  induction m with
  | zero =>
    intro p j h
    rfl
  | succ i ih =>
    intro p j h
    simp only [backSubAux]
    rw [ih _ j (by omega)]
    exact backSubStep_ne R k i j p (by omega)

theorem backSubAux_spec (R : ℕ → ℕ → ℝ) (k : ℕ) :
    ∀ (m : ℕ), m ≤ k → ∀ (p : ℕ → ℝ) (i : ℕ), i < m →
      backSubAux R k m p i =
        (p i - ∑ j ∈ Finset.Ico (i + 1) k, R j i * backSubAux R k m p j) /
          R i i := by
  intro m
  induction m with
  | zero =>
    intro hm p i hi
    omega
  | succ mm ih =>
    intro hm p i hi
    have h1 : backSubAux R k (mm + 1) p
        = backSubAux R k mm (backSubStep R k mm p) := rfl
    rcases Nat.lt_succ_iff_lt_or_eq.mp hi with hlt | heq
    · rw [h1, ih (by omega) _ i hlt]
      rw [backSubStep_ne R k mm i p (by omega)]
    · subst heq
      rw [h1, backSubAux_frozen R k i _ i le_rfl]
      have h2 : ∀ j ∈ Finset.Ico (i + 1) k,
          R j i * backSubAux R k i (backSubStep R k i p) j
            = R j i * p j := by
        intro j hj
        have hj2 := Finset.mem_Ico.mp hj
        rw [backSubAux_frozen R k i _ j (by omega)]
        rw [backSubStep_ne R k i j p (by omega)]
      rw [Finset.sum_congr rfl h2]
      simp only [backSubStep, upd, if_pos rfl]
      rw [foldl_sub_sum]
      have h3 : i + 1 + (k - (i + 1)) = k := by omega
      rw [h3]
      simp

/-- Claim C5: for effective size k with nonzero diagonal entries the
back-substitution loop transforms projection_rhs in place into
coefficients c with c[i] = (p[i] - sum of R[j][i]*c[j] over j in (i, k))
divided by R[i][i]; equivalently the transposed-stored upper-triangular
system, summed from the diagonal term up, reproduces the input p[i]. -/
theorem C5_backSub_solves (R : ℕ → ℕ → ℝ) (k : ℕ) (p : ℕ → ℝ)
    (hd : ∀ i, i < k → R i i ≠ 0) :
    ∀ i, i < k →
      backSub R k p i =
        (p i - ∑ j ∈ Finset.Ico (i + 1) k, R j i * backSub R k p j) /
          R i i ∧
      ∑ j ∈ Finset.Ico i k, R j i * backSub R k p j = p i := by
  intro i hi
  have h1 : backSub R k p i =
      (p i - ∑ j ∈ Finset.Ico (i + 1) k, R j i * backSub R k p j) /
        R i i := backSubAux_spec R k k le_rfl p i hi
  refine ⟨h1, ?_⟩
  rw [Finset.sum_eq_sum_Ico_succ_bot hi, h1]
  rw [mul_comm (R i i), div_mul_cancel₀ _ (hd i hi)]
  ring

/-- Witness for C5 with k = 1, R[0][0] = 2 and p[0] = 6: the solved
coefficient is 3 and it reproduces the right-hand side. -/
theorem C5_witness :
    (∀ i, i < 1 → (fun _ _ => (2:ℝ)) i i ≠ 0) ∧
    backSub (fun _ _ => (2:ℝ)) 1 (fun _ => (6:ℝ)) 0 = 3 ∧
    ∑ j ∈ Finset.Ico 0 1,
      (fun _ _ => (2:ℝ)) j 0 * backSub (fun _ _ => (2:ℝ)) 1
        (fun _ => (6:ℝ)) j = 6 := by
  have hd : ∀ i, i < 1 → (fun _ _ => (2:ℝ)) i i ≠ 0 := by
    intro i _
    norm_num
  have h := C5_backSub_solves (fun _ _ => (2:ℝ)) 1 (fun _ => (6:ℝ)) hd 0
    (by norm_num)
  refine ⟨hd, ?_, h.2⟩
  rw [h.1]
  norm_num

end Gmres

namespace Gmres

theorem innerLoop_bounds (A P : (ℕ → ℝ) → ℕ → ℝ) (n : ℕ)
    (eps tol rho_0 norm_rhs : ℝ) :
    ∀ (fuel k : ℕ) (rho : ℝ) (s : SolveState),
      k ≤ (innerLoop A P n eps tol rho_0 norm_rhs fuel k rho s).1 ∧
      (innerLoop A P n eps tol rho_0 norm_rhs fuel k rho s).1 ≤ k + fuel ∧
      (innerLoop A P n eps tol rho_0 norm_rhs fuel k rho s).2.2.iters
        ≤ s.iters + fuel := by
  intro fuel
  induction fuel with
  | zero =>
    intro k rho s
    refine ⟨le_refl _, ?_, ?_⟩
    · show k ≤ k + 0
      omega
    · show s.iters ≤ s.iters + 0
      omega
  | succ f ih =>
    intro k rho s
    simp only [innerLoop]
    split
    · refine ⟨le_refl _, by omega, ?_⟩
      show s.iters + 1 ≤ s.iters + (f + 1)
      omega
    · split
      · refine ⟨by omega, by omega, ?_⟩
        show s.iters + 1 ≤ s.iters + (f + 1)
        omega
      · refine ⟨?_, ?_, ?_⟩
        · exact le_trans (by omega) (ih _ _ _).1
        · exact le_trans (ih _ _ _).2.1 (by omega)
        · refine le_trans (ih _ _ _).2.2 ?_
          show s.iters + 1 + f ≤ s.iters + (f + 1)
          omega

/-- Claim C7: when problem_size < krylov_dim the solver clamps the basis
size to problem_size, so one restart cycle performs at most problem_size
inner steps and its effective Krylov size (the largest index touched in
the problem_size-length working vectors) never exceeds problem_size. -/
theorem C7_krylov_clamped (n kd : ℕ) (h : n < kd) :
    krylovUsed n kd = n ∧
    (∀ (A P : (ℕ → ℝ) → ℕ → ℝ) (eps tol norm_rhs : ℝ) (rhs : ℕ → ℝ)
        (s : SolveState),
      (gmresCycle A P n (krylovUsed n kd) eps tol norm_rhs rhs s).k_eff
        ≤ n ∧
      (gmresCycle A P n (krylovUsed n kd) eps tol norm_rhs rhs s).s.iters
        ≤ s.iters + n) := by
  have hk : krylovUsed n kd = n := if_pos h
  refine ⟨hk, ?_⟩
  intro A P eps tol norm_rhs rhs s
  rw [hk]
  simp only [gmresCycle]
  split
  · constructor
    · exact Nat.zero_le _
    · show s.iters ≤ s.iters + n
      omega
  · constructor
    · refine le_trans ?_ (by omega : 0 + n ≤ n)
      exact (innerLoop_bounds A P n eps tol (cycleRho0 A P n rhs s) norm_rhs
        n 0 1 (cycleStart A P n n rhs s)).2.1
    · exact (innerLoop_bounds A P n eps tol (cycleRho0 A P n rhs s) norm_rhs
        n 0 1 (cycleStart A P n n rhs s)).2.2

/-- Witness for C7 with problem size 1 and krylov_dim 2 on the identity
operator: the clamped size is 1 and the cycle's effective size is at
most 1. -/
theorem C7_witness :
    krylovUsed 1 2 = 1 ∧
    (gmresCycle (fun v => v) (fun v => v) 1 (krylovUsed 1 2) 0 1 1
        (fun _ => 0)
        ⟨fun _ => 0, fun _ => 0, fun _ _ => 0, fun _ _ => 0, fun _ => 0,
          0⟩).k_eff ≤ 1 := by
  have h := C7_krylov_clamped 1 2 (by norm_num)
  exact ⟨h.1, (h.2 (fun v => v) (fun v => v) 0 1 1 (fun _ => 0)
    ⟨fun _ => 0, fun _ => 0, fun _ _ => 0, fun _ _ => 0, fun _ => 0, 0⟩).1⟩

end Gmres

namespace Gmres

/-- Claim C10: in a cycle that is entered with projection_rhs[0] still
holding its zero-initialized value (as in the first restart cycle) and
whose inner loop stops at effective size 0 (breakdown at the very first
step), the reconstruction multiplies res by projection_rhs[0] = 0, so the
correction added to the accumulated solution is the zero vector and the
result is unchanged by that cycle. -/
theorem C10_first_cycle_breakdown (A P : (ℕ → ℝ) → ℕ → ℝ) (n kd : ℕ)
    (eps tol norm_rhs : ℝ) (rhs : ℕ → ℝ) (s : SolveState)
    (hp : s.p 0 = 0) (hkd : 1 ≤ kd)
    (hne : ¬ (cycleRho0 A P n rhs s / norm_rhs < tol ∨ norm_rhs = 0))
    (hkeff : (gmresCycle A P n kd eps tol norm_rhs rhs s).k_eff = 0) :
    ∀ j, (gmresCycle A P n kd eps tol norm_rhs rhs s).s.result j
      = s.result j := by
  intro j
  have hk0 : (cycleInner A P n kd eps tol norm_rhs rhs s).1 = 0 := by
    have h2 := hkeff
    simp only [gmresCycle] at h2
    rw [if_neg hne] at h2
    exact h2
  have hps : (cycleInner A P n kd eps tol norm_rhs rhs s).2.2.p 0 = 0 := by
    obtain ⟨m, rfl⟩ : ∃ m, kd = m + 1 := ⟨kd - 1, by omega⟩
    simp only [cycleInner, innerLoop] at hk0 ⊢
    by_cases hbd : |houseDiag n (candidate A P n
        (cycleStart A P n (m + 1) rhs s).U
        (cycleStart A P n (m + 1) rhs s).res 0) 0| < 10 * eps
    · rw [if_pos hbd]
      exact hp
    · rw [if_neg hbd] at hk0
      exfalso
      split at hk0
      · simp at hk0
      · exact absurd hk0 (Nat.pos_iff_ne_zero.mp
          ((innerLoop_bounds A P n eps tol
            (cycleRho0 A P n rhs s) norm_rhs m _ _ _).1))
  simp only [gmresCycle]
  rw [if_neg hne]
  show s.result j +
      reconstruct n (cycleRho0 A P n rhs s)
        (cycleInner A P n kd eps tol norm_rhs rhs s).1
        (cycleInner A P n kd eps tol norm_rhs rhs s).2.2
        (backSub (cycleInner A P n kd eps tol norm_rhs rhs s).2.2.R
          (cycleInner A P n kd eps tol norm_rhs rhs s).1
          (cycleInner A P n kd eps tol norm_rhs rhs s).2.2.p) j
    = s.result j
  rw [hk0]
  have hb0 : backSub (cycleInner A P n kd eps tol norm_rhs rhs s).2.2.R 0
      (cycleInner A P n kd eps tol norm_rhs rhs s).2.2.p
      = (cycleInner A P n kd eps tol norm_rhs rhs s).2.2.p := rfl
  rw [hb0]
  simp only [reconstruct, reflectFold, List.range_zero, List.reverse_nil,
    List.foldl_nil, lt_self_iff_false, if_false]
  rw [hps]
  ring

end Gmres

namespace Gmres

/-- Witness for C4: with the zero operator the first candidate vanishes,
its diagonal is sqrt(0) = 0 < 10 eps, and the loop exits with k_eff = 0
leaving R, projection_rhs and res untouched. -/
theorem C4_witness :
    (innerLoop (fun _ _ => (0:ℝ)) (fun v => v) 1 1 1 1 1 1 0 1
      ⟨fun _ => 0, fun _ => 0, fun _ _ => 0, fun _ _ => 0, fun _ => 0,
        0⟩).1 = 0 ∧
    (innerLoop (fun _ _ => (0:ℝ)) (fun v => v) 1 1 1 1 1 1 0 1
      ⟨fun _ => 0, fun _ => 0, fun _ _ => 0, fun _ _ => 0, fun _ => 0,
        0⟩).2.1 = 1 ∧
    (innerLoop (fun _ _ => (0:ℝ)) (fun v => v) 1 1 1 1 1 1 0 1
      ⟨fun _ => 0, fun _ => 0, fun _ _ => 0, fun _ _ => 0, fun _ => 0,
        0⟩).2.2.R = (fun _ _ => 0) ∧
    (innerLoop (fun _ _ => (0:ℝ)) (fun v => v) 1 1 1 1 1 1 0 1
      ⟨fun _ => 0, fun _ => 0, fun _ _ => 0, fun _ _ => 0, fun _ => 0,
        0⟩).2.2.p = (fun _ => 0) ∧
    (innerLoop (fun _ _ => (0:ℝ)) (fun v => v) 1 1 1 1 1 1 0 1
      ⟨fun _ => 0, fun _ => 0, fun _ _ => 0, fun _ _ => 0, fun _ => 0,
        0⟩).2.2.res = (fun _ => 0) ∧
    (innerLoop (fun _ _ => (0:ℝ)) (fun v => v) 1 1 1 1 1 1 0 1
      ⟨fun _ => 0, fun _ => 0, fun _ _ => 0, fun _ _ => 0, fun _ => 0,
        0⟩).2.2.iters = 0 + 1 := by
  have hbd : |houseDiag 1 (candidate (fun _ _ => (0:ℝ)) (fun v => v) 1
      (⟨fun _ => 0, fun _ => 0, fun _ _ => 0, fun _ _ => 0, fun _ => 0,
        0⟩ : SolveState).U
      (⟨fun _ => 0, fun _ => 0, fun _ _ => 0, fun _ _ => 0, fun _ => 0,
        0⟩ : SolveState).res 0) 0| < 10 * 1 := by
    simp [candidate, houseDiag, truncTo, iprod]
  exact C4_breakdown_exit (fun _ _ => (0:ℝ)) (fun v => v) 1 1 1 1 1 0 0 1
    ⟨fun _ => 0, fun _ => 0, fun _ _ => 0, fun _ _ => 0, fun _ => 0, 0⟩ hbd

/-- Witness for C6 at rho = 1 with an empty remaining loop. -/
theorem C6_witness :
    (-1 ≤ clamp 1 0 ∧ clamp 1 0 ≤ 1) ∧
    (0 ≤ (innerLoop (fun v => v) (fun v => v) 1 1 1 1 1 0 0 1
        ⟨fun _ => 0, fun _ => 0, fun _ _ => 0, fun _ _ => 0, fun _ => 0,
          0⟩).2.1 ∧
     (innerLoop (fun v => v) (fun v => v) 1 1 1 1 1 0 0 1
        ⟨fun _ => 0, fun _ => 0, fun _ _ => 0, fun _ _ => 0, fun _ => 0,
          0⟩).2.1 ≤ 1 ∧
     (innerLoop (fun v => v) (fun v => v) 1 1 1 1 1 0 0 1
        ⟨fun _ => 0, fun _ => 0, fun _ _ => 0, fun _ _ => 0, fun _ => 0,
          0⟩).2.1 ≤ 1) :=
  C6_rho_invariant (fun v => v) (fun v => v) 1 1 1 1 1 0 0 1 0
    ⟨fun _ => 0, fun _ => 0, fun _ _ => 0, fun _ _ => 0, fun _ => 0, 0⟩
    (by norm_num) (by norm_num)

/-- Witness for C10: zero operator, rhs = e0, first cycle with zeroed
projection_rhs; breakdown happens at step 0 and the result entry is
unchanged (still 0). -/
theorem C10_witness :
    (gmresCycle (fun _ _ => (0:ℝ)) (fun v => v) 1 1 1 (1/2) 1
        (fun j => if j = 0 then (1:ℝ) else 0)
        ⟨fun _ => 0, fun _ => 0, fun _ _ => 0, fun _ _ => 0, fun _ => 0,
          0⟩).s.result 0 = 0 := by
  have hrho : cycleRho0 (fun _ _ => (0:ℝ)) (fun v => v) 1
      (fun j => if j = 0 then (1:ℝ) else 0)
      ⟨fun _ => 0, fun _ => 0, fun _ _ => 0, fun _ _ => 0, fun _ => 0, 0⟩
      = 1 := by
    simp [cycleRho0, cycleRes0, norm_2, iprod]
  have hne : ¬ (cycleRho0 (fun _ _ => (0:ℝ)) (fun v => v) 1
      (fun j => if j = 0 then (1:ℝ) else 0)
      ⟨fun _ => 0, fun _ => 0, fun _ _ => 0, fun _ _ => 0, fun _ => 0, 0⟩
        / 1 < 1/2 ∨ (1:ℝ) = 0) := by
    rw [hrho]
    norm_num
  have hbd : |houseDiag 1 (candidate (fun _ _ => (0:ℝ)) (fun v => v) 1
      (cycleStart (fun _ _ => (0:ℝ)) (fun v => v) 1 1
        (fun j => if j = 0 then (1:ℝ) else 0)
        ⟨fun _ => 0, fun _ => 0, fun _ _ => 0, fun _ _ => 0, fun _ => 0,
          0⟩).U
      (cycleStart (fun _ _ => (0:ℝ)) (fun v => v) 1 1
        (fun j => if j = 0 then (1:ℝ) else 0)
        ⟨fun _ => 0, fun _ => 0, fun _ _ => 0, fun _ _ => 0, fun _ => 0,
          0⟩).res 0) 0| < 10 * 1 := by
    simp [candidate, houseDiag, truncTo, iprod]
  have hkeff : (gmresCycle (fun _ _ => (0:ℝ)) (fun v => v) 1 1 1 (1/2) 1
      (fun j => if j = 0 then (1:ℝ) else 0)
      ⟨fun _ => 0, fun _ => 0, fun _ _ => 0, fun _ _ => 0, fun _ => 0, 0⟩).k_eff
      = 0 := by
    simp only [gmresCycle]
    rw [if_neg hne]
    show (cycleInner (fun _ _ => (0:ℝ)) (fun v => v) 1 1 1 (1/2) 1
      (fun j => if j = 0 then (1:ℝ) else 0)
      ⟨fun _ => 0, fun _ => 0, fun _ _ => 0, fun _ _ => 0, fun _ => 0,
        0⟩).1 = 0
    simp only [cycleInner, innerLoop]
    rw [if_pos hbd]
  exact C10_first_cycle_breakdown (fun _ _ => (0:ℝ)) (fun v => v) 1 1 1
    (1/2) 1 (fun j => if j = 0 then (1:ℝ) else 0)
    ⟨fun _ => 0, fun _ => 0, fun _ _ => 0, fun _ _ => 0, fun _ => 0, 0⟩
    rfl le_rfl hne hkeff 0

end Gmres

namespace Gmres

theorem errPair_cases (c : Prop) [Decidable c] (x y : ℝ) :
    (decide c = false → (if c then x else y) = y) ∧
    (decide c = true → (if c then x else y) = x) := by
  by_cases h : c
  · constructor
    · intro hf
      exact absurd hf (by simp [h])
    · intro _
      exact if_pos h
  · constructor
    · intro _
      exact if_neg h
    · intro ht
      exact absurd ht (by simp [h])

theorem gmresCycle_err_form (A P : (ℕ → ℝ) → ℕ → ℝ) (n kd : ℕ)
    (eps tol norm_rhs : ℝ) (rhs : ℕ → ℝ) (s : SolveState) :
    ((gmresCycle A P n kd eps tol norm_rhs rhs s).returned = false →
      (gmresCycle A P n kd eps tol norm_rhs rhs s).err =
        |(gmresCycle A P n kd eps tol norm_rhs rhs s).rho *
          (gmresCycle A P n kd eps tol norm_rhs rhs s).rho_0|) ∧
    ((gmresCycle A P n kd eps tol norm_rhs rhs s).returned = true →
      (gmresCycle A P n kd eps tol norm_rhs rhs s).err =
        (gmresCycle A P n kd eps tol norm_rhs rhs s).rho_0 / norm_rhs ∨
      (gmresCycle A P n kd eps tol norm_rhs rhs s).err =
        |(gmresCycle A P n kd eps tol norm_rhs rhs s).rho *
          (gmresCycle A P n kd eps tol norm_rhs rhs s).rho_0 / norm_rhs|) := by
  simp only [gmresCycle]
  split
  · constructor
    · intro hf
      exact Bool.noConfusion hf
    · intro _
      left
      rfl
  · constructor
    · intro hf
      exact (errPair_cases _ _ _).1 hf
    · intro ht
      exact Or.inr ((errPair_cases _ _ _).2 ht)

theorem outerLoop_err_form (A P : (ℕ → ℝ) → ℕ → ℝ) (n kd : ℕ)
    (eps tol norm_rhs : ℝ) (rhs : ℕ → ℝ) :
    ∀ (fuel : ℕ) (s : SolveState) (e : ℝ), 1 ≤ fuel →
      ((outerLoop A P n kd eps tol norm_rhs rhs fuel s e).2.2.1 = false →
        (outerLoop A P n kd eps tol norm_rhs rhs fuel s e).2.1 =
          |(outerLoop A P n kd eps tol norm_rhs rhs fuel s e).2.2.2.1 *
            (outerLoop A P n kd eps tol norm_rhs rhs fuel s e).2.2.2.2|) ∧
      ((outerLoop A P n kd eps tol norm_rhs rhs fuel s e).2.2.1 = true →
        (outerLoop A P n kd eps tol norm_rhs rhs fuel s e).2.1 =
          (outerLoop A P n kd eps tol norm_rhs rhs fuel s e).2.2.2.2 /
            norm_rhs ∨
        (outerLoop A P n kd eps tol norm_rhs rhs fuel s e).2.1 =
          |(outerLoop A P n kd eps tol norm_rhs rhs fuel s e).2.2.2.1 *
            (outerLoop A P n kd eps tol norm_rhs rhs fuel s e).2.2.2.2 /
              norm_rhs|) := by
  intro fuel
  induction fuel with
  | zero =>
    intro s e h
    omega
  | succ f ih =>
    intro s e _
    simp only [outerLoop]
    split
    · rename_i hret
      constructor
      · intro hf
        exact Bool.noConfusion hf
      · intro _
        exact (gmresCycle_err_form A P n kd eps tol norm_rhs rhs s).2 hret
    · rename_i hret
      split
      · constructor
        · intro _
          exact (gmresCycle_err_form A P n kd eps tol norm_rhs rhs s).1
            (Bool.eq_false_iff.mpr hret)
        · intro ht
          exact Bool.noConfusion ht
      · rename_i hf0
        exact ih _ _ (by omega)

/-- Claim C8: when the outer loop exhausts all max_restarts()+1 cycles
without any convergence test succeeding, the recorded error is the
unnormalized |rho * rho_0| of the last cycle, whereas every converging
return records a normalized value: rho_0 / norm_rhs at the start of a
cycle, |rho * rho_0 / norm_rhs| otherwise. -/
theorem C8_error_record (A P : (ℕ → ℝ) → ℕ → ℝ) (n : ℕ) (eps : ℝ)
    (tag : gmres_tag) (rhs : ℕ → ℝ) (h : norm_2 n rhs ≠ 0) :
    ((solve A P n eps tag rhs).converged = false →
      (solve A P n eps tag rhs).error =
        |(solve A P n eps tag rhs).rho * (solve A P n eps tag rhs).rho_0|) ∧
    ((solve A P n eps tag rhs).converged = true →
      (solve A P n eps tag rhs).error =
        (solve A P n eps tag rhs).rho_0 / norm_2 n rhs ∨
      (solve A P n eps tag rhs).error =
        |(solve A P n eps tag rhs).rho * (solve A P n eps tag rhs).rho_0 /
          norm_2 n rhs|) := by
  simp only [solve]
  rw [if_neg h]
  exact outerLoop_err_form A P n (krylovUsed n tag.krylov_dim) eps tag.tol
    (norm_2 n rhs) rhs (tag.max_restarts + 1) initState
    tag.last_error (by omega)

end Gmres

namespace Gmres

/-- Witness for C8: identity operator, rhs = e0, tolerance 2; the first
cycle converges at its start, so the run is converged and the recorded
error is one of the two normalized forms. -/
theorem C8_witness :
    ((solve (fun v => v) (fun v => v) 1 0 (gmres_tag.make 2 1 1 0)
        (fun j => if j = 0 then (1:ℝ) else 0)).converged = false →
      (solve (fun v => v) (fun v => v) 1 0 (gmres_tag.make 2 1 1 0)
        (fun j => if j = 0 then (1:ℝ) else 0)).error =
        |(solve (fun v => v) (fun v => v) 1 0 (gmres_tag.make 2 1 1 0)
          (fun j => if j = 0 then (1:ℝ) else 0)).rho *
         (solve (fun v => v) (fun v => v) 1 0 (gmres_tag.make 2 1 1 0)
          (fun j => if j = 0 then (1:ℝ) else 0)).rho_0|) ∧
    ((solve (fun v => v) (fun v => v) 1 0 (gmres_tag.make 2 1 1 0)
        (fun j => if j = 0 then (1:ℝ) else 0)).converged = true →
      (solve (fun v => v) (fun v => v) 1 0 (gmres_tag.make 2 1 1 0)
        (fun j => if j = 0 then (1:ℝ) else 0)).error =
        (solve (fun v => v) (fun v => v) 1 0 (gmres_tag.make 2 1 1 0)
          (fun j => if j = 0 then (1:ℝ) else 0)).rho_0 /
          norm_2 1 (fun j => if j = 0 then (1:ℝ) else 0) ∨
      (solve (fun v => v) (fun v => v) 1 0 (gmres_tag.make 2 1 1 0)
        (fun j => if j = 0 then (1:ℝ) else 0)).error =
        |(solve (fun v => v) (fun v => v) 1 0 (gmres_tag.make 2 1 1 0)
          (fun j => if j = 0 then (1:ℝ) else 0)).rho *
         (solve (fun v => v) (fun v => v) 1 0 (gmres_tag.make 2 1 1 0)
          (fun j => if j = 0 then (1:ℝ) else 0)).rho_0 /
          norm_2 1 (fun j => if j = 0 then (1:ℝ) else 0)|) :=
  C8_error_record (fun v => v) (fun v => v) 1 0 (gmres_tag.make 2 1 1 0)
    (fun j => if j = 0 then (1:ℝ) else 0)
    (by norm_num [norm_2, iprod])

/-- Counterexample for C9 as stated: two configurations freshly
constructed with the same (tolerance, max_iterations, krylov_dim) but
different residues in the uninitialized last_error_ field, called on the
same zero rhs, leave different error values: the zero-norm early return
(gmres.hpp lines 151-152) fires before any tag.error(...) write, so the
uninitialized constructor value is what error() reports. -/
theorem C9_counterexample :
    (solve (fun v => v) (fun v => v) 1 0 (gmres_tag.make 1 300 20 0)
        (fun _ => 0)).error ≠
    (solve (fun v => v) (fun v => v) 1 0 (gmres_tag.make 1 300 20 1)
        (fun _ => 0)).error := by
  have h : norm_2 1 (fun _ => (0:ℝ)) = 0 := by
    simp [norm_2, iprod]
  have h1 : (solve (fun v => v) (fun v => v) 1 0 (gmres_tag.make 1 300 20 0)
      (fun _ => 0)).error = 0 := by
    simp [solve, h, gmres_tag.make]
  have h2 : (solve (fun v => v) (fun v => v) 1 0 (gmres_tag.make 1 300 20 1)
      (fun _ => 0)).error = 1 := by
    simp [solve, h, gmres_tag.make]
  rw [h1, h2]
  norm_num

theorem outerLoop_drops_err (A P : (ℕ → ℝ) → ℕ → ℝ) (n kd : ℕ)
    (eps tol norm_rhs : ℝ) (rhs : ℕ → ℝ) (fuel : ℕ) (s : SolveState)
    (e1 e2 : ℝ) :
    outerLoop A P n kd eps tol norm_rhs rhs (fuel + 1) s e1 =
    outerLoop A P n kd eps tol norm_rhs rhs (fuel + 1) s e2 := by
  simp only [outerLoop]

/-- Claim C9 amended: for any rhs of nonzero norm, two solve calls on
freshly constructed configurations with the same (tolerance,
max_iterations, krylov_dim) produce identical outputs - result vector,
iterations_taken and error - whatever values the uninitialized last_error_
fields held; only for a zero-norm rhs can the reported error differ
(it is then the uninitialized constructor residue). -/
theorem C9_fresh_tag_deterministic (A P : (ℕ → ℝ) → ℕ → ℝ) (n : ℕ)
    (eps tol : ℝ) (mi kd : ℕ) (e1 e2 : ℝ) (rhs : ℕ → ℝ)
    (h : norm_2 n rhs ≠ 0) :
    solve A P n eps (gmres_tag.make tol mi kd e1) rhs =
    solve A P n eps (gmres_tag.make tol mi kd e2) rhs := by
  simp only [solve, gmres_tag.make, gmres_tag.max_restarts]
  rw [if_neg h, if_neg h]
  rw [outerLoop_drops_err A P n (krylovUsed n kd) eps tol (norm_2 n rhs)
    rhs _ _ e1 e2]

/-- Witness for C9: identity operator, rhs = e0 with norm 1, junk values
0 and 5 in the uninitialized field give equal outputs. -/
theorem C9_witness :
    solve (fun v => v) (fun v => v) 1 0 (gmres_tag.make 2 1 1 0)
      (fun j => if j = 0 then (1:ℝ) else 0) =
    solve (fun v => v) (fun v => v) 1 0 (gmres_tag.make 2 1 1 5)
      (fun j => if j = 0 then (1:ℝ) else 0) :=
  C9_fresh_tag_deterministic (fun v => v) (fun v => v) 1 0 2 1 1 0 5
    (fun j => if j = 0 then (1:ℝ) else 0) (by norm_num [norm_2, iprod])

end Gmres

namespace Gmres

theorem iprod_self_nonneg (n : ℕ) (x : ℕ → ℝ) : 0 ≤ iprod n x x :=
  Finset.sum_nonneg fun j _ => mul_self_nonneg (x j)

theorem iprod_comm (n : ℕ) (x y : ℕ → ℝ) : iprod n x y = iprod n y x := by
  unfold iprod
  exact Finset.sum_congr rfl fun j _ => mul_comm _ _

theorem iprod_vsub_left (n : ℕ) (x y z : ℕ → ℝ) :
    iprod n (vsub x y) z = iprod n x z - iprod n y z := by
  unfold iprod vsub
  rw [← Finset.sum_sub_distrib]
  exact Finset.sum_congr rfl fun j _ => by ring

theorem iprod_vsub_right (n : ℕ) (x y z : ℕ → ℝ) :
    iprod n x (vsub y z) = iprod n x y - iprod n x z := by
  rw [iprod_comm, iprod_vsub_left, iprod_comm n y x, iprod_comm n z x]

theorem iprod_vsmul_left (n : ℕ) (c : ℝ) (x y : ℕ → ℝ) :
    iprod n (vsmul c x) y = c * iprod n x y := by
  unfold iprod vsmul
  rw [Finset.mul_sum]
  exact Finset.sum_congr rfl fun j _ => by ring

theorem iprod_vsmul_right (n : ℕ) (c : ℝ) (x y : ℕ → ℝ) :
    iprod n x (vsmul c y) = c * iprod n x y := by
  rw [iprod_comm, iprod_vsmul_left, iprod_comm n y x]

theorem iprod_upd_unit_left (n i : ℕ) (hi : i < n) (x : ℕ → ℝ) :
    iprod n (upd (fun _ => 0) i 1) x = x i := by
  unfold iprod upd
  rw [Finset.sum_eq_single i]
  · simp
  · intro c _ hc
    simp [hc]
  · intro hni
    exact absurd (Finset.mem_range.mpr hi) hni

theorem iprod_normalized (n : ℕ) (b : ℕ → ℝ) (hib : iprod n b b ≠ 0) :
    iprod n (fun j => b j / norm_2 n b) (fun j => b j / norm_2 n b)
      = 1 := by
  have hstep : ∀ j ∈ Finset.range n,
      b j / norm_2 n b * (b j / norm_2 n b)
        = b j * b j / (norm_2 n b * norm_2 n b) := by
    intro j _
    rw [div_mul_div_comm]
  unfold iprod
  rw [Finset.sum_congr rfl hstep, ← Finset.sum_div]
  rw [show norm_2 n b * norm_2 n b = iprod n b b from
    Real.mul_self_sqrt (iprod_self_nonneg n b)]
  exact div_self hib

theorem reflect_involutive (n : ℕ) (q w : ℕ → ℝ)
    (h : iprod n q q = 1 ∨ ∀ j, q j = 0) (j : ℕ) :
    reflect n q (reflect n q w) j = w j := by
  rcases h with h1 | h0
  · have hinner : iprod n q (reflect n q w) = -iprod n q w := by
      unfold reflect
      rw [iprod_vsub_right, iprod_vsmul_right, h1]
      ring
    show reflect n q w j - iprod n q (reflect n q w) * 2 * q j = w j
    rw [hinner]
    show w j - iprod n q w * 2 * q j - -iprod n q w * 2 * q j = w j
    ring
  · show reflect n q w j - iprod n q (reflect n q w) * 2 * q j = w j
    rw [h0 j, mul_zero, sub_zero]
    show w j - iprod n q w * 2 * q j = w j
    rw [h0 j, mul_zero, sub_zero]

theorem houseStep_unit (n : ℕ) (hn : 0 < n) (u : ℕ → ℝ)
    (huu : iprod n u u = 1) :
    (iprod n
        (vsmul (-1 / norm_2 n (vsub (upd (fun _ => 0) 0 1) u))
          (vsub (upd (fun _ => 0) 0 1) u))
        (vsmul (-1 / norm_2 n (vsub (upd (fun _ => 0) 0 1) u))
          (vsub (upd (fun _ => 0) 0 1) u)) = 1 ∨
      ∀ j, vsmul (-1 / norm_2 n (vsub (upd (fun _ => 0) 0 1) u))
        (vsub (upd (fun _ => 0) 0 1) u) j = 0) ∧
    reflect n
        (vsmul (-1 / norm_2 n (vsub (upd (fun _ => 0) 0 1) u))
          (vsub (upd (fun _ => 0) 0 1) u)) u 0 = 1 := by
  have hEE : iprod n (upd (fun _ => 0) 0 1) (upd (fun _ => 0) 0 1) = 1 :=
    iprod_upd_unit_left n 0 hn _
  have hEu : iprod n (upd (fun _ => 0) 0 1) u = u 0 :=
    iprod_upd_unit_left n 0 hn u
  have huE : iprod n u (upd (fun _ => 0) 0 1) = u 0 := by
    rw [iprod_comm]
    exact hEu
  have hQ : iprod n (vsub (upd (fun _ => 0) 0 1) u)
      (vsub (upd (fun _ => 0) 0 1) u) = 2 - 2 * u 0 := by
    rw [iprod_vsub_left, iprod_vsub_right, iprod_vsub_right, hEE, hEu, huE,
      huu]
    ring
  have hsub0 : vsub (upd (fun _ => 0) 0 1) u 0 = 1 - u 0 := rfl
  rcases eq_or_ne (iprod n (vsub (upd (fun _ => 0) 0 1) u)
      (vsub (upd (fun _ => 0) 0 1) u)) 0 with hQ0 | hQne
  · have hnm : norm_2 n (vsub (upd (fun _ => 0) 0 1) u) = 0 := by
      rw [norm_2, hQ0, Real.sqrt_zero]
    have hz : ∀ j, vsmul (-1 / norm_2 n (vsub (upd (fun _ => 0) 0 1) u))
        (vsub (upd (fun _ => 0) 0 1) u) j = 0 := by
      intro j
      show -1 / norm_2 n (vsub (upd (fun _ => 0) 0 1) u) *
        vsub (upd (fun _ => 0) 0 1) u j = 0
      rw [hnm, div_zero, zero_mul]
    have hu0 : u 0 = 1 := by
      rw [hQ] at hQ0
      linarith
    refine ⟨Or.inr hz, ?_⟩
    show u 0 - iprod n (vsmul (-1 / norm_2 n (vsub (upd (fun _ => 0) 0 1) u))
        (vsub (upd (fun _ => 0) 0 1) u)) u * 2 *
      vsmul (-1 / norm_2 n (vsub (upd (fun _ => 0) 0 1) u))
        (vsub (upd (fun _ => 0) 0 1) u) 0 = 1
    rw [hz 0, mul_zero, sub_zero, hu0]
  · have hnm2 : norm_2 n (vsub (upd (fun _ => 0) 0 1) u) *
        norm_2 n (vsub (upd (fun _ => 0) 0 1) u)
        = iprod n (vsub (upd (fun _ => 0) 0 1) u)
            (vsub (upd (fun _ => 0) 0 1) u) :=
      Real.mul_self_sqrt (iprod_self_nonneg _ _)
    have hnmne : norm_2 n (vsub (upd (fun _ => 0) 0 1) u) ≠ 0 := by
      intro hc
      apply hQne
      rw [← hnm2, hc, mul_zero]
    have hne1 : u 0 ≠ 1 := by
      intro hc
      apply hQne
      rw [hQ, hc]
      ring
    have h2u : 2 - 2 * u 0 ≠ 0 := by
      intro hc
      apply hne1
      linarith
    have hcc : -1 / norm_2 n (vsub (upd (fun _ => 0) 0 1) u) *
        (-1 / norm_2 n (vsub (upd (fun _ => 0) 0 1) u)) = 1 / (2 - 2 * u 0) := by
      rw [div_mul_div_comm, neg_mul_neg, one_mul, hnm2, hQ]
    constructor
    · left
      rw [iprod_vsmul_left, iprod_vsmul_right, hQ]
      rw [show -1 / norm_2 n (vsub (upd (fun _ => 0) 0 1) u) *
          (-1 / norm_2 n (vsub (upd (fun _ => 0) 0 1) u) * (2 - 2 * u 0))
          = -1 / norm_2 n (vsub (upd (fun _ => 0) 0 1) u) *
            (-1 / norm_2 n (vsub (upd (fun _ => 0) 0 1) u)) * (2 - 2 * u 0)
        from by ring]
      rw [hcc]
      field_simp
    · show u 0 - iprod n (vsmul (-1 / norm_2 n (vsub (upd (fun _ => 0) 0 1) u))
          (vsub (upd (fun _ => 0) 0 1) u)) u * 2 *
        vsmul (-1 / norm_2 n (vsub (upd (fun _ => 0) 0 1) u))
          (vsub (upd (fun _ => 0) 0 1) u) 0 = 1
      rw [iprod_vsmul_left, iprod_vsub_left, hEu, huu]
      show u 0 - -1 / norm_2 n (vsub (upd (fun _ => 0) 0 1) u) * (u 0 - 1) * 2 *
        (-1 / norm_2 n (vsub (upd (fun _ => 0) 0 1) u) *
          vsub (upd (fun _ => 0) 0 1) u 0) = 1
      rw [hsub0]
      rw [show u 0 - -1 / norm_2 n (vsub (upd (fun _ => 0) 0 1) u) *
          (u 0 - 1) * 2 * (-1 / norm_2 n (vsub (upd (fun _ => 0) 0 1) u) *
            (1 - u 0))
          = u 0 + -1 / norm_2 n (vsub (upd (fun _ => 0) 0 1) u) *
            (-1 / norm_2 n (vsub (upd (fun _ => 0) 0 1) u)) *
              (2 * (1 - u 0) * (1 - u 0))
        from by ring]
      rw [hcc]
      have h1u : (1:ℝ) - u 0 ≠ 0 := by
        intro hc
        apply hne1
        linarith
      field_simp
      ring

end Gmres

namespace Gmres

theorem upd_self_of_eq (x : ℕ → ℝ) (i : ℕ) (v : ℝ) (h : x i = v) :
    upd x i v = x := by
  funext j
  unfold upd
  by_cases hj : j = i
  · rw [if_pos hj, hj, h]
  · rw [if_neg hj]

/-- Claim C1 amended: for the identity operator, the identity
preconditioner, any rhs b of nonzero norm, krylov_dim at least 1,
tolerance in (0, 1] and machine epsilon with 10 eps at most 1, solve
returns b exactly, performs exactly one inner step (iters = 1, so
k_eff = 1 in the first and only cycle), converges, and records error 0.

For a tolerance above 1 the converged-at-start check of the first cycle
fires before any inner step, so the claim as stated for every positive
tolerance fails; see the counterexample. -/
theorem C1_identity_solve (n : ℕ) (eps tol : ℝ) (mi kd : ℕ) (junk : ℝ)
    (b : ℕ → ℝ) (hb : norm_2 n b ≠ 0) (hkd : 1 ≤ kd)
    (htol0 : 0 < tol) (htol1 : tol ≤ 1) (heps : 10 * eps ≤ 1) :
    (∀ j, (solve (fun v => v) (fun v => v) n eps
        (gmres_tag.make tol mi kd junk) b).x j = b j) ∧
    (solve (fun v => v) (fun v => v) n eps
        (gmres_tag.make tol mi kd junk) b).iters = 1 ∧
    (solve (fun v => v) (fun v => v) n eps
        (gmres_tag.make tol mi kd junk) b).error = 0 ∧
    (solve (fun v => v) (fun v => v) n eps
        (gmres_tag.make tol mi kd junk) b).converged = true := by
  have hib : iprod n b b ≠ 0 := by
    intro hz
    apply hb
    rw [norm_2, hz, Real.sqrt_zero]
  have hn : 0 < n := by
    rcases Nat.eq_zero_or_pos n with h0 | h0
    · exfalso
      apply hib
      rw [h0]
      simp [iprod]
    · exact h0
  have hres0 : ∀ j, cycleRes0 (fun v => v) (fun v => v) b initState j
      = b j := by
    intro j
    show b j - 0 = b j
    exact sub_zero (b j)
  have hrho_0 : cycleRho0 (fun v => v) (fun v => v) n b initState
      = norm_2 n b := by
    unfold cycleRho0 norm_2
    congr 1
    unfold iprod
    exact Finset.sum_congr rfl fun j _ => by rw [hres0 j]
  have hcond : ¬ (cycleRho0 (fun v => v) (fun v => v) n b initState /
      norm_2 n b < tol ∨ norm_2 n b = 0) := by
    rw [hrho_0, div_self hb]
    push_neg
    exact ⟨htol1, hb⟩
  have hkdU : 1 ≤ krylovUsed n kd := by
    unfold krylovUsed
    split
    · omega
    · omega
  obtain ⟨m, hm⟩ : ∃ m, krylovUsed n kd = m + 1 :=
    ⟨krylovUsed n kd - 1, by omega⟩
  have huu : iprod n (fun j => b j / norm_2 n b)
      (fun j => b j / norm_2 n b) = 1 := iprod_normalized n b hib
  have hures : (cycleStart (fun v => v) (fun v => v) n (m + 1) b
      initState).res = fun j => b j / norm_2 n b := by
    funext j
    show cycleRes0 (fun v => v) (fun v => v) b initState j /
      cycleRho0 (fun v => v) (fun v => v) n b initState
        = b j / norm_2 n b
    rw [hres0 j, hrho_0]
  have htr0 : truncTo (fun j => b j / norm_2 n b) 0 = (fun _ => (0:ℝ)) := by
    funext j
    exact if_neg (Nat.not_lt_zero j)
  have hukk : houseDiag n (fun j => b j / norm_2 n b) 0 = 1 := by
    unfold houseDiag
    rw [htr0]
    have hz : iprod n (fun _ => (0:ℝ)) (fun _ => (0:ℝ)) = 0 := by
      simp [iprod]
    rw [hz, huu, sub_zero, Real.sqrt_one]
  have hnobd : ¬ (|(1:ℝ)| < 10 * eps) := by
    rw [abs_one]
    exact not_lt.mpr heps
  have hcore := houseStep_unit n hn (fun j => b j / norm_2 n b) huu
  have hr0 := hcore.2
  have hclamp : clamp (1:ℝ) 1 = 1 := by
    norm_num [clamp]
  have hsin : Real.sin (Real.arccos ((1:ℝ) / 1)) = 0 := by
    rw [div_one, Real.arccos_one, Real.sin_zero]
  have hIn : (cycleInner (fun v => v) (fun v => v) n (krylovUsed n kd) eps
        tol (norm_2 n b) b initState).1 = 1 ∧
      (cycleInner (fun v => v) (fun v => v) n (krylovUsed n kd) eps
        tol (norm_2 n b) b initState).2.1 = 0 ∧
      (cycleInner (fun v => v) (fun v => v) n (krylovUsed n kd) eps
        tol (norm_2 n b) b initState).2.2.res =
        upd (reflect n
          (vsmul (-1 / norm_2 n (vsub (upd (fun _ => 0) 0 1)
              (fun j => b j / norm_2 n b)))
            (vsub (upd (fun _ => 0) 0 1) (fun j => b j / norm_2 n b)))
          (fun j => b j / norm_2 n b)) 0 1 ∧
      (cycleInner (fun v => v) (fun v => v) n (krylovUsed n kd) eps
        tol (norm_2 n b) b initState).2.2.U 0 =
        vsmul (-1 / norm_2 n (vsub (upd (fun _ => 0) 0 1)
            (fun j => b j / norm_2 n b)))
          (vsub (upd (fun _ => 0) 0 1) (fun j => b j / norm_2 n b)) ∧
      (cycleInner (fun v => v) (fun v => v) n (krylovUsed n kd) eps
        tol (norm_2 n b) b initState).2.2.R 0 0 = 1 ∧
      (cycleInner (fun v => v) (fun v => v) n (krylovUsed n kd) eps
        tol (norm_2 n b) b initState).2.2.p 0 = 1 ∧
      (cycleInner (fun v => v) (fun v => v) n (krylovUsed n kd) eps
        tol (norm_2 n b) b initState).2.2.iters = 1 := by
    rw [hm]
    simp only [cycleInner, innerLoop]
    rw [show candidate (fun v => v) (fun v => v) n
        (cycleStart (fun v => v) (fun v => v) n (m + 1) b initState).U
        (cycleStart (fun v => v) (fun v => v) n (m + 1) b initState).res 0
        = (cycleStart (fun v => v) (fun v => v) n (m + 1) b initState).res
      from rfl]
    rw [hures, htr0, hukk]
    rw [if_neg hnobd]
    rw [hr0, hclamp, hrho_0, hsin, mul_zero, zero_mul, zero_div, abs_zero]
    rw [if_pos htol0]
    exact ⟨rfl, rfl, rfl, rfl, rfl, rfl, rfl⟩
  obtain ⟨hkeff, hrhoF, hsres, hU0, hR00, hp0, hiters⟩ := hIn
  have hcycle_ret : (gmresCycle (fun v => v) (fun v => v) n
      (krylovUsed n kd) eps tol (norm_2 n b) b initState).returned
        = true := by
    simp only [gmresCycle]
    rw [if_neg hcond]
    show decide (|(cycleInner (fun v => v) (fun v => v) n (krylovUsed n kd)
        eps tol (norm_2 n b) b initState).2.1 *
        cycleRho0 (fun v => v) (fun v => v) n b initState /
          norm_2 n b| < tol) = true
    rw [hrhoF, hrho_0, zero_mul, zero_div, abs_zero]
    exact decide_eq_true htol0
  have hcycle_err : (gmresCycle (fun v => v) (fun v => v) n
      (krylovUsed n kd) eps tol (norm_2 n b) b initState).err = 0 := by
    simp only [gmresCycle]
    rw [if_neg hcond]
    show (if |(cycleInner (fun v => v) (fun v => v) n (krylovUsed n kd)
          eps tol (norm_2 n b) b initState).2.1 *
          cycleRho0 (fun v => v) (fun v => v) n b initState /
            norm_2 n b| < tol
        then |(cycleInner (fun v => v) (fun v => v) n (krylovUsed n kd)
          eps tol (norm_2 n b) b initState).2.1 *
          cycleRho0 (fun v => v) (fun v => v) n b initState /
            norm_2 n b|
        else |(cycleInner (fun v => v) (fun v => v) n (krylovUsed n kd)
          eps tol (norm_2 n b) b initState).2.1 *
          cycleRho0 (fun v => v) (fun v => v) n b initState|) = 0
    rw [hrhoF, hrho_0, zero_mul, zero_div, abs_zero]
    rw [if_pos htol0]
  have hp20 : backSub (cycleInner (fun v => v) (fun v => v) n
      (krylovUsed n kd) eps tol (norm_2 n b) b initState).2.2.R 1
      (cycleInner (fun v => v) (fun v => v) n (krylovUsed n kd) eps tol
        (norm_2 n b) b initState).2.2.p 0 = 1 := by
    show (cycleInner (fun v => v) (fun v => v) n (krylovUsed n kd) eps tol
        (norm_2 n b) b initState).2.2.p 0 /
      (cycleInner (fun v => v) (fun v => v) n (krylovUsed n kd) eps tol
        (norm_2 n b) b initState).2.2.R 0 0 = 1
    rw [hp0, hR00]
    exact div_one 1
  have hrec : ∀ j, reconstruct n (norm_2 n b) 1
      (cycleInner (fun v => v) (fun v => v) n (krylovUsed n kd) eps tol
        (norm_2 n b) b initState).2.2
      (backSub (cycleInner (fun v => v) (fun v => v) n (krylovUsed n kd)
          eps tol (norm_2 n b) b initState).2.2.R 1
        (cycleInner (fun v => v) (fun v => v) n (krylovUsed n kd) eps tol
          (norm_2 n b) b initState).2.2.p) j = b j := by
    intro j
    simp only [reconstruct, reflectFold]
    rw [if_pos Nat.zero_lt_one]
    simp only [Nat.sub_self, List.range_zero, List.foldl_nil]
    rw [show (List.range 1).reverse = [0] from rfl]
    simp only [List.foldl_cons, List.foldl_nil]
    rw [hU0]
    simp only [hp20, mul_one]
    rw [hsres]
    rw [upd_self_of_eq _ 0 1 hr0]
    rw [reflect_involutive n _ (fun j => b j / norm_2 n b) hcore.1 j]
    show b j / norm_2 n b * norm_2 n b = b j
    exact div_mul_cancel₀ (b j) hb
  have hx : ∀ j, (gmresCycle (fun v => v) (fun v => v) n (krylovUsed n kd)
      eps tol (norm_2 n b) b initState).s.result j = b j := by
    intro j
    simp only [gmresCycle]
    rw [if_neg hcond]
    show initState.result j +
      reconstruct n (cycleRho0 (fun v => v) (fun v => v) n b initState)
        (cycleInner (fun v => v) (fun v => v) n (krylovUsed n kd) eps tol
          (norm_2 n b) b initState).1
        (cycleInner (fun v => v) (fun v => v) n (krylovUsed n kd) eps tol
          (norm_2 n b) b initState).2.2
        (backSub (cycleInner (fun v => v) (fun v => v) n (krylovUsed n kd)
            eps tol (norm_2 n b) b initState).2.2.R
          (cycleInner (fun v => v) (fun v => v) n (krylovUsed n kd) eps tol
            (norm_2 n b) b initState).1
          (cycleInner (fun v => v) (fun v => v) n (krylovUsed n kd) eps tol
            (norm_2 n b) b initState).2.2.p) j = b j
    rw [hkeff, hrho_0, hrec j]
    show (0:ℝ) + b j = b j
    exact zero_add (b j)
  have hit : (gmresCycle (fun v => v) (fun v => v) n (krylovUsed n kd)
      eps tol (norm_2 n b) b initState).s.iters = 1 := by
    simp only [gmresCycle]
    rw [if_neg hcond]
    exact hiters
  refine ⟨?_, ?_, ?_, ?_⟩
  · intro j
    simp only [solve, gmres_tag.make]
    rw [if_neg hb]
    simp only [outerLoop]
    rw [if_pos hcycle_ret]
    exact hx j
  · simp only [solve, gmres_tag.make]
    rw [if_neg hb]
    simp only [outerLoop]
    rw [if_pos hcycle_ret]
    exact hit
  · simp only [solve, gmres_tag.make]
    rw [if_neg hb]
    simp only [outerLoop]
    rw [if_pos hcycle_ret]
    exact hcycle_err
  · simp only [solve, gmres_tag.make]
    rw [if_neg hb]
    simp only [outerLoop]
    rw [if_pos hcycle_ret]

end Gmres

namespace Gmres

/-- Counterexample to C1 as stated: with the identity operator, nonzero
rhs e0 and tolerance 2 > 0, the converged-at-start check rho_0 / norm_rhs
= 1 < 2 fires before the basis loop, so solve performs zero inner steps
(iterations_taken = 0, not 1). -/
theorem C1_counterexample :
    (0:ℝ) < 2 ∧
    norm_2 1 (fun j => if j = 0 then (1:ℝ) else 0) ≠ 0 ∧
    (solve (fun v => v) (fun v => v) 1 0 (gmres_tag.make 2 1 1 0)
      (fun j => if j = 0 then (1:ℝ) else 0)).iters = 0 := by
  have hnb : norm_2 1 (fun j => if j = 0 then (1:ℝ) else 0) = 1 := by
    simp [norm_2, iprod]
  have hne : norm_2 1 (fun j => if j = 0 then (1:ℝ) else 0) ≠ 0 := by
    rw [hnb]
    norm_num
  refine ⟨by norm_num, hne, ?_⟩
  have hrho : cycleRho0 (fun v => v) (fun v => v) 1
      (fun j => if j = 0 then (1:ℝ) else 0) initState = 1 := by
    simp [cycleRho0, cycleRes0, norm_2, iprod, initState]
  have hcond : cycleRho0 (fun v => v) (fun v => v) 1
      (fun j => if j = 0 then (1:ℝ) else 0) initState /
        norm_2 1 (fun j => if j = 0 then (1:ℝ) else 0) < 2 ∨
      norm_2 1 (fun j => if j = 0 then (1:ℝ) else 0) = 0 := by
    left
    rw [hrho, hnb]
    norm_num
  have hret : (gmresCycle (fun v => v) (fun v => v) 1 (krylovUsed 1 1) 0 2
      (norm_2 1 (fun j => if j = 0 then (1:ℝ) else 0))
      (fun j => if j = 0 then (1:ℝ) else 0) initState).returned = true := by
    simp only [gmresCycle]
    rw [if_pos hcond]
  have hiters0 : (gmresCycle (fun v => v) (fun v => v) 1 (krylovUsed 1 1) 0 2
      (norm_2 1 (fun j => if j = 0 then (1:ℝ) else 0))
      (fun j => if j = 0 then (1:ℝ) else 0) initState).s.iters = 0 := by
    simp only [gmresCycle]
    rw [if_pos hcond]
    rfl
  simp only [solve, gmres_tag.make]
  rw [if_neg hne]
  simp only [outerLoop]
  rw [if_pos hret]
  exact hiters0

/-- Witness for the amended C1 at n = 1, b = e0, tolerance 1, krylov_dim
1, machine epsilon 0: solve returns b, does exactly one inner step,
converges, and records error 0. -/
theorem C1_witness :
    (∀ j, (solve (fun v => v) (fun v => v) 1 0 (gmres_tag.make 1 1 1 0)
        (fun j => if j = 0 then (1:ℝ) else 0)).x j
      = (fun j => if j = 0 then (1:ℝ) else 0) j) ∧
    (solve (fun v => v) (fun v => v) 1 0 (gmres_tag.make 1 1 1 0)
        (fun j => if j = 0 then (1:ℝ) else 0)).iters = 1 ∧
    (solve (fun v => v) (fun v => v) 1 0 (gmres_tag.make 1 1 1 0)
        (fun j => if j = 0 then (1:ℝ) else 0)).error = 0 ∧
    (solve (fun v => v) (fun v => v) 1 0 (gmres_tag.make 1 1 1 0)
        (fun j => if j = 0 then (1:ℝ) else 0)).converged = true :=
  C1_identity_solve 1 0 1 1 1 0 (fun j => if j = 0 then (1:ℝ) else 0)
    (by
      rw [show norm_2 1 (fun j => if j = 0 then (1:ℝ) else 0) = 1 from
        by simp [norm_2, iprod]]
      norm_num)
    le_rfl (by norm_num) le_rfl (by norm_num)

end Gmres
